import Mathlib

/-!
Shallow embedding of `src/gazenet.py` (GPCycleGAN): the training/validation
orchestration loop for the GazeNet classifier.

Modelling conventions:
* Python floats are modelled as `Rat` (note that `statistics.mean` computes
  an exact rational mean internally, so `Rat` is faithful for the average
  loss); numpy float division, which can produce NaN/inf on a zero
  denominator, is modelled by the type `NFloat` below.
* The model's parameter state is an abstract type `P`; the forward pass
  `fwd : Mode → P → List ι → List (List Rat)` maps a batch of inputs to one
  row of per-class scores (log-probabilities) per example, and the combined
  `loss.backward(); optimizer.step()` parameter update is an abstract
  function `step : P → List ι → List Nat → P`.  Tensors of scores are
  `List (List Rat)` (already in the `(N, num_classes)` shape produced by
  `scores.view(-1, args.num_classes)`).
* File/plot side effects are modelled by the data handed to them (the
  checkpoint-write boolean, the prediction log, the normalized confusion
  matrix, the logged batch indices).
-/

attribute [local semireducible] Rat.mul Rat.inv Rat.add Rat.sub

namespace GazeNet

/-- Fatal error raised when a pass observes zero batches: in the source,
`statistics.mean` raises on an empty list before any division happens. -/
inductive TrainError where
  | emptyDataset
deriving DecidableEq

/-- `statistics.mean` on a list of (exact rational) loss values. -/
def mean (l : List Rat) : Rat := l.sum / l.length

/-- Index of the first maximal element of a score row:
`scores.data.max(1)[1]` in the source. -/
def argmaxAux : List Rat → Nat → Rat → Nat → Nat
  | [], _, _, bi => bi
  | x :: xs, i, bv, bi =>
      if bv < x then argmaxAux xs (i + 1) x i else argmaxAux xs (i + 1) bv bi

/-- Arg-max class of one row of scores (`pred` in the source). -/
def argmaxIdx : List Rat → Nat
  | [] => 0
  | x :: xs => argmaxAux xs 1 x 0

/-- `pred.eq(targets.data).cpu().sum()`: number of positions where the
predicted label equals the ground-truth label. -/
def countMatches (pred targets : List Nat) : Nat :=
  ((pred.zip targets).filter (fun p => p.1 == p.2)).length

/-- `F.nll_loss(scores, targets)`: negative mean of the score assigned to
the true class of each example (scores are log-probabilities). -/
def nllLoss (scores : List (List Rat)) (targets : List Nat) : Rat :=
  -(((scores.zip targets).map (fun st => st.1.getD st.2 0)).sum)
    / ((scores.zip targets).length)

/-- `netGaze.train()` / `netGaze.eval()` mode flag. -/
inductive Mode where
  | trainMode
  | evalMode
deriving DecidableEq

/-- The model handle: parameter state plus the train/eval mode flag. -/
structure Model (P : Type) where
  params : P
  mode : Mode
deriving DecidableEq

/-- One `(data, targets)` pair produced by a data loader. -/
structure Batch (ι : Type) where
  data : List ι
  targets : List Nat
deriving DecidableEq

/-- `len(loader.dataset)`: total number of examples in a split, i.e. the sum
of the batch sizes. -/
def datasetSize {ι : Type} (batches : List (Batch ι)) : Nat :=
  (batches.map (fun b => b.targets.length)).sum

/-- Mutable state threaded through the training loop of `train`:
parameters, the `epoch_loss` list, the `correct` counter, and the batch
indices at which a progress line was emitted. -/
structure TrainState (P : Type) where
  params : P
  losses : List Rat
  correct : Nat
  logged : List Nat
deriving DecidableEq

/-- Body of the `for b_idx, (data, targets) in enumerate(train_loader)` loop:
forward pass, nll loss, arg-max predictions, correctness accumulation, one
optimizer step, and the `b_idx % args.log_schedule == 0` progress line. -/
def trainBatchStep {ι P : Type} (fwd : Mode → P → List ι → List (List Rat))
    (step : P → List ι → List Nat → P) (logSchedule : Nat)
    (bIdx : Nat) (s : TrainState P) (b : Batch ι) : TrainState P :=
  let scores := fwd Mode.trainMode s.params b.data
  let loss := nllLoss scores b.targets
  let pred := scores.map argmaxIdx
  { params := step s.params b.data b.targets
    losses := s.losses ++ [loss]
    correct := s.correct + countMatches pred b.targets
    logged := if bIdx % logSchedule == 0 then s.logged ++ [bIdx] else s.logged }

/-- The whole batch loop of `train`, processing batches in stream order. -/
def trainGo {ι P : Type} (fwd : Mode → P → List ι → List (List Rat))
    (step : P → List ι → List Nat → P) (logSchedule : Nat) :
    Nat → TrainState P → List (Batch ι) → TrainState P
  | _, s, [] => s
  | bIdx, s, b :: bs =>
      trainGo fwd step logSchedule (bIdx + 1)
        (trainBatchStep fwd step logSchedule bIdx s b) bs

/-- The batch loop of `train` started from the initial state
(`epoch_loss = []`, `correct = 0`). -/
def trainFold {ι P : Type} (fwd : Mode → P → List ι → List (List Rat))
    (step : P → List ι → List Nat → P) (logSchedule : Nat)
    (p : P) (batches : List (Batch ι)) : TrainState P :=
  trainGo fwd step logSchedule 0 ⟨p, [], 0, []⟩ batches

/-- The `train(netGaze, epoch)` function: one pass over the training stream.
Returns the updated parameters, `avg_loss = mean(epoch_loss)`,
`train_accuracy = 100 * correct / len(dataset)`, and the logged batch
indices; on an empty stream `mean` raises (modelled as `TrainError`). -/
def train {ι P : Type} (fwd : Mode → P → List ι → List (List Rat))
    (step : P → List ι → List Nat → P) (logSchedule : Nat)
    (p : P) (batches : List (Batch ι)) :
    Except TrainError (P × Rat × Rat × List Nat) :=
  let s := trainFold fwd step logSchedule p batches
  if s.losses.isEmpty then Except.error TrainError.emptyDataset
  else
    Except.ok (s.params, mean s.losses,
      100 * (s.correct : Rat) / (datasetSize batches : Rat), s.logged)

/-- The `pred_all` / `target_all` arrays accumulated during validation. -/
structure PredLog where
  preds : List Nat
  targets : List Nat
deriving DecidableEq

/-- The batch loop of `val`: forward pass in eval mode, arg-max
predictions, correctness accumulation, and appending predictions and
targets to the prediction log, in stream order. -/
def valGo {ι P : Type} (fwd : Mode → P → List ι → List (List Rat)) (p : P) :
    List (Batch ι) → Nat × PredLog
  | [] => (0, ⟨[], []⟩)
  | b :: bs =>
      let scores := fwd Mode.evalMode p b.data
      let pred := scores.map argmaxIdx
      let rest := valGo fwd p bs
      (countMatches pred b.targets + rest.1,
       ⟨pred ++ rest.2.preds, b.targets ++ rest.2.targets⟩)

/-- Result of one `val(netGaze)` call: the model handle after
`netGaze.eval()`, the validation accuracy, the updated `best_accuracy`,
whether the checkpoint write / confusion-matrix render branch fired, and
the prediction log handed to the renderer. -/
structure ValResult (P : Type) where
  model : Model P
  accuracy : Rat
  best : Rat
  wrote : Bool
  log : PredLog
deriving DecidableEq

/-- The `val(netGaze)` function: one pass over the validation stream in
eval mode, accuracy computation, and the best-model selector
(`if val_accuracy > best_accuracy: save + plot_confusion_matrix`). -/
def val {ι P : Type} (fwd : Mode → P → List ι → List (List Rat))
    (batches : List (Batch ι)) (m : Model P) (best : Rat) : ValResult P :=
  let m' : Model P := ⟨m.params, Mode.evalMode⟩
  let r := valGo fwd m'.params batches
  let acc : Rat := 100 * (r.1 : Rat) / (datasetSize batches : Rat)
  if best < acc then ⟨m', acc, acc, true, r.2⟩
  else ⟨m', acc, best, false, r.2⟩

/-- Insert a natural number into a (sorted) list, keeping order. -/
def insertSorted (x : Nat) : List Nat → List Nat
  | [] => [x]
  | y :: ys => if x ≤ y then x :: y :: ys else y :: insertSorted x ys

/-- Insertion sort on lists of naturals (used to model numpy's sorted
unique-label computation inside `sklearn.metrics.confusion_matrix`). -/
def sortNat (l : List Nat) : List Nat := l.foldr insertSorted []

/-- The label set used by `sklearn.metrics.confusion_matrix(y_true, y_pred)`
with its default `labels=None`: the sorted deduplicated union of the labels
occurring in `y_true` and `y_pred`. -/
def cmLabels (yTrue yPred : List Nat) : List Nat :=
  sortNat ((yTrue ++ yPred).dedup)

/-- Row of the (un-normalized) confusion matrix for true class `c`: entry
`j` counts the examples with true label `c` and predicted label
`labels[j]`. -/
def cmRow (yTrue yPred : List Nat) (c : Nat) : List Nat :=
  (cmLabels yTrue yPred).map (fun d =>
    ((yTrue.zip yPred).filter (fun p => p.1 == c && p.2 == d)).length)

/-- `cm = confusion_matrix(y_true, y_pred)`: the count matrix over the
occurring labels, row-indexed by true class, column-indexed by predicted
class. -/
def confusion_matrix (yTrue yPred : List Nat) : List (List Nat) :=
  (cmLabels yTrue yPred).map (fun c => cmRow yTrue yPred c)

/-- A numpy double: either an ordinary (rational) value, or the NaN/inf
that `0/0` and `x/0` produce under numpy's floating division. -/
inductive NFloat where
  | num (q : Rat)
  | nan
  | inf
deriving DecidableEq

/-- numpy elementwise division on doubles: division by zero yields NaN
(for `0/0`) or inf (for `x/0`, `x > 0`) instead of raising. -/
def npDiv : NFloat → NFloat → NFloat
  | NFloat.num a, NFloat.num b =>
      if b = 0 then (if a = 0 then NFloat.nan else NFloat.inf)
      else NFloat.num (a / b)
  | _, _ => NFloat.nan

/-- numpy addition on doubles (NaN-absorbing, inf-absorbing among
numbers). -/
def nadd : NFloat → NFloat → NFloat
  | NFloat.num a, NFloat.num b => NFloat.num (a + b)
  | NFloat.num _, NFloat.inf => NFloat.inf
  | NFloat.inf, NFloat.num _ => NFloat.inf
  | NFloat.inf, NFloat.inf => NFloat.inf
  | _, _ => NFloat.nan

/-- Sum of a list of numpy doubles. -/
def nsum : List NFloat → NFloat
  | [] => NFloat.num 0
  | x :: xs => nadd x (nsum xs)

/-- `cm.astype('float') / cm.sum(axis=1)[:, np.newaxis]`: each row of the
count matrix divided elementwise by its own row sum. -/
def normalizeRow (row : List Nat) : List NFloat :=
  row.map (fun x : Nat =>
    npDiv (NFloat.num (x : Rat)) (NFloat.num ((row.sum : Nat) : Rat)))

/-- The row-normalized confusion matrix computed inside
`plot_confusion_matrix` when `normalize=True` (the call sites use the
default `normalize=True`). -/
def normalizedCM (yTrue yPred : List Nat) : List (List NFloat) :=
  (confusion_matrix yTrue yPred).map normalizeRow

/-- Per-epoch record produced by the supervisor loop in `__main__`: the
epoch index, the train statistics appended to the running curves, the
validation accuracy, the `best_accuracy` before and after the selector
ran, whether the checkpoint write / render fired, and the logged batch
indices of the training pass. -/
structure EpochRec where
  epoch : Nat
  avgLoss : Rat
  trainAcc : Rat
  valAcc : Rat
  bestBefore : Rat
  bestAfter : Rat
  wrote : Bool
  logged : List Nat
deriving DecidableEq

/-- The `for i in range(1, args.epochs+1)` supervisor loop: per epoch,
`train` then `val` in that strict order, threading the model handle and the
global `best_accuracy`.  The first argument counts remaining epochs, the
second is the current epoch index `i`.  A failed training pass aborts the
run (no retry). -/
def runEpochs {ι P : Type} (fwd : Mode → P → List ι → List (List Rat))
    (step : P → List ι → List Nat → P) (trainStream : Nat → List (Batch ι))
    (valBatches : List (Batch ι)) (logSchedule : Nat) :
    Nat → Nat → Model P → Rat → Except TrainError (Model P × Rat × List EpochRec)
  | 0, _, m, best => Except.ok (m, best, [])
  | Nat.succ n, i, m, best =>
      match train fwd step logSchedule m.params (trainStream i) with
      | Except.error e => Except.error e
      | Except.ok (p, avgLoss, tAcc, logged) =>
          let vr := val fwd valBatches ⟨p, Mode.trainMode⟩ best
          match runEpochs fwd step trainStream valBatches logSchedule n
              (i + 1) vr.model vr.best with
          | Except.error e => Except.error e
          | Except.ok (mF, bF, recs) =>
              Except.ok (mF, bF,
                ⟨i, avgLoss, tAcc, vr.accuracy, best, vr.best, vr.wrote,
                  logged⟩ :: recs)

/-- The whole `__main__` run: epochs `1..N`, `best_accuracy` initialized to
`0.0`. -/
def mainLoop {ι P : Type} (fwd : Mode → P → List ι → List (List Rat))
    (step : P → List ι → List Nat → P) (trainStream : Nat → List (Batch ι))
    (valBatches : List (Batch ι)) (logSchedule : Nat) (epochs : Nat)
    (m0 : Model P) : Except TrainError (Model P × Rat × List EpochRec) :=
  runEpochs fwd step trainStream valBatches logSchedule epochs 1 m0 0

/-- The model parameter state reached after the first `k` training passes,
characterized independently of the supervisor loop by iterating the batch
loop of `train` over the per-epoch training streams. -/
def trainedParams {ι P : Type} (fwd : Mode → P → List ι → List (List Rat))
    (step : P → List ι → List Nat → P) (trainStream : Nat → List (Batch ι))
    (logSchedule : Nat) (p0 : P) : Nat → P
  | 0 => p0
  | Nat.succ k =>
      (trainFold fwd step logSchedule
        (trainedParams fwd step trainStream logSchedule p0 k)
        (trainStream (k + 1))).params

/-- The validation accuracy of a given parameter state, independently of
the supervisor loop. -/
def valAccuracy {ι P : Type} (fwd : Mode → P → List ι → List (List Rat))
    (batches : List (Batch ι)) (p : P) : Rat :=
  100 * ((valGo fwd p batches).1 : Rat) / (datasetSize batches : Rat)

/-- The per-epoch statistics sequence a run reports: average training loss,
training accuracy and validation accuracy, in epoch order. -/
def statsOf (recs : List EpochRec) : List (Rat × Rat × Rat) :=
  recs.map (fun r => (r.avgLoss, r.trainAcc, r.valAcc))

/-- Decidable equality on run results, so concrete runs can be checked by
evaluation. -/
instance {ε α : Type} [DecidableEq ε] [DecidableEq α] : DecidableEq (Except ε α) := fun a b =>
  match a, b with
  | Except.error x, Except.error y =>
      if h : x = y then Decidable.isTrue (congrArg Except.error h)
      else Decidable.isFalse (fun hc => h (Except.error.inj hc))
  | Except.error _, Except.ok _ => Decidable.isFalse (fun hc => Except.noConfusion hc)
  | Except.ok _, Except.error _ => Decidable.isFalse (fun hc => Except.noConfusion hc)
  | Except.ok x, Except.ok y =>
      if h : x = y then Decidable.isTrue (congrArg Except.ok h)
      else Decidable.isFalse (fun hc => h (Except.ok.inj hc))

/-- A tiny concrete model whose parameter state is a step counter and whose
scores always favor class 0 (used to exercise the loop on concrete runs). -/
def constFwd : Mode → Nat → List Unit → List (List Rat) :=
  fun _ _ xs => xs.map (fun _ => [(1 : Rat), 0])

/-- A concrete model that favors class 0 exactly when its parameter state
is `1` (after one training pass) and class 1 afterwards, so validation
accuracy drops after the first epoch. -/
def flipFwd : Mode → Nat → List Unit → List (List Rat) :=
  fun _ p xs => xs.map (fun _ => if p = 1 then [(1 : Rat), 0] else [0, 1])

/-- A concrete parameter update: count the optimizer steps taken. -/
def incStep : Nat → List Unit → List Nat → Nat := fun p _ _ => p + 1

/-- A concrete one-batch stream with a single example of class 0. -/
def oneBatch : List (Batch Unit) := [⟨[()], [0]⟩]

/-- A concrete three-epoch run whose validation accuracies are
`[100, 0, 0]`: epochs 2 and 3 have equal validation accuracy and neither
exceeds the running best. -/
def cexRun : Except TrainError (Model Nat × Rat × List EpochRec) :=
  mainLoop flipFwd incStep (fun _ => oneBatch) oneBatch 1 3 ⟨0, Mode.trainMode⟩

/-- The per-epoch records of `cexRun`. -/
def cexRecs : List EpochRec :=
  ((cexRun.toOption).map (fun o => o.2.2)).getD []

/-- The validation split of the 10-example scenario: one batch of ten
examples whose true labels are five 0s followed by five 1s. -/
def scenBatches : List (Batch Unit) :=
  [⟨List.replicate 10 (), [0, 0, 0, 0, 0, 1, 1, 1, 1, 1]⟩]

/-- The `best_accuracy` discipline along a run: starting from `b`, each
record's `bestBefore` is the incoming best, its `bestAfter` is the strict
maximum update, and `wrote` records whether the strict comparison fired. -/
def BestChain : Rat → List EpochRec → Prop
  | _, [] => True
  | b, r :: rs =>
      r.bestBefore = b
      ∧ r.bestAfter = (if b < r.valAcc then r.valAcc else b)
      ∧ r.wrote = decide (b < r.valAcc)
      ∧ BestChain r.bestAfter rs

/-- A training-pass result with the observational log lines erased. -/
def dropLog {P : Type} (r : Except TrainError (P × Rat × Rat × List Nat)) :
    Except TrainError (P × Rat × Rat) :=
  r.map (fun x => (x.1, x.2.1, x.2.2.1))

/-- Epoch records with the observational log lines erased. -/
def eraseLogs (recs : List EpochRec) : List EpochRec :=
  recs.map (fun r =>
    ⟨r.epoch, r.avgLoss, r.trainAcc, r.valAcc, r.bestBefore, r.bestAfter,
      r.wrote, []⟩)

/-- The per-epoch records of the two-epoch run of `constFwd` (validation
accuracy 100 in both epochs, so only the first epoch writes). -/
def witRecs : List EpochRec :=
  [⟨1, -1, 100, 100, 0, 100, true, [0]⟩,
   ⟨2, -1, 100, 100, 100, 100, false, [0]⟩]

/-! Helper lemmas. -/

lemma countMatches_le (pred targets : List Nat) :
    countMatches pred targets ≤ targets.length := by
  unfold countMatches
  calc ((pred.zip targets).filter (fun p => p.1 == p.2)).length
      ≤ (pred.zip targets).length := List.length_filter_le _ _
    _ ≤ targets.length := by rw [List.length_zip]; exact inf_le_right

lemma valGo_correct_le {ι P : Type} (fwd : Mode → P → List ι → List (List Rat))
    (p : P) : ∀ bs : List (Batch ι), (valGo fwd p bs).1 ≤ datasetSize bs := by
  intro bs
  induction bs with
  | nil => simp [valGo, datasetSize]
  | cons b t ih =>
      simp only [valGo, datasetSize, List.map_cons, List.sum_cons]
      have h1 := countMatches_le ((fwd Mode.evalMode p b.data).map argmaxIdx) b.targets
      have h2 : (valGo fwd p t).1 ≤ datasetSize t := ih
      unfold datasetSize at h2
      omega

lemma valGo_targets {ι P : Type} (fwd : Mode → P → List ι → List (List Rat))
    (p : P) : ∀ bs : List (Batch ι),
    (valGo fwd p bs).2.targets = (bs.map (fun b => b.targets)).flatten := by
  intro bs
  induction bs with
  | nil => rfl
  | cons b t ih => simp [valGo, ih]

lemma valGo_preds {ι P : Type} (fwd : Mode → P → List ι → List (List Rat))
    (p : P) : ∀ bs : List (Batch ι),
    (valGo fwd p bs).2.preds
      = (bs.map (fun b => (fwd Mode.evalMode p b.data).map argmaxIdx)).flatten := by
  intro bs
  induction bs with
  | nil => rfl
  | cons b t ih => simp [valGo, ih]

lemma val_model_eq {ι P : Type} (fwd : Mode → P → List ι → List (List Rat))
    (bs : List (Batch ι)) (m : Model P) (best : Rat) :
    (val fwd bs m best).model = ⟨m.params, Mode.evalMode⟩ := by
  unfold val
  dsimp only
  split <;> rfl

lemma val_accuracy_eq {ι P : Type} (fwd : Mode → P → List ι → List (List Rat))
    (bs : List (Batch ι)) (m : Model P) (best : Rat) :
    (val fwd bs m best).accuracy = valAccuracy fwd bs m.params := by
  unfold val valAccuracy
  dsimp only
  split <;> rfl

lemma val_log_eq {ι P : Type} (fwd : Mode → P → List ι → List (List Rat))
    (bs : List (Batch ι)) (m : Model P) (best : Rat) :
    (val fwd bs m best).log = (valGo fwd m.params bs).2 := by
  unfold val
  dsimp only
  split <;> rfl

lemma val_best_eq {ι P : Type} (fwd : Mode → P → List ι → List (List Rat))
    (bs : List (Batch ι)) (m : Model P) (best : Rat) :
    (val fwd bs m best).best
      = if best < (val fwd bs m best).accuracy then (val fwd bs m best).accuracy
        else best := by
  unfold val
  dsimp only
  split <;> simp_all

lemma val_wrote_eq {ι P : Type} (fwd : Mode → P → List ι → List (List Rat))
    (bs : List (Batch ι)) (m : Model P) (best : Rat) :
    (val fwd bs m best).wrote = decide (best < (val fwd bs m best).accuracy) := by
  unfold val
  dsimp only
  split <;> simp_all

lemma accuracy_nonneg (c s : Nat) : 0 ≤ 100 * (c : Rat) / (s : Rat) := by
  positivity

lemma accuracy_le_100 (c s : Nat) (h : c ≤ s) (hs : 0 < s) :
    100 * (c : Rat) / (s : Rat) ≤ 100 := by
  have hs1 : (0 : Rat) < (s : Rat) := by exact_mod_cast hs
  have h1 : (c : Rat) / (s : Rat) ≤ 1 := (div_le_one hs1).mpr (by exact_mod_cast h)
  calc 100 * (c : Rat) / (s : Rat) = 100 * ((c : Rat) / (s : Rat)) := by ring
    _ ≤ 100 * 1 := by linarith
    _ = 100 := by norm_num

lemma trainGo_correct_le {ι P : Type} (fwd : Mode → P → List ι → List (List Rat))
    (step : P → List ι → List Nat → P) (K : Nat) :
    ∀ (bs : List (Batch ι)) (bIdx : Nat) (s : TrainState P),
    (trainGo fwd step K bIdx s bs).correct ≤ s.correct + datasetSize bs := by
  intro bs
  induction bs with
  | nil => intro bIdx s; simp [trainGo, datasetSize]
  | cons b t ih =>
      intro bIdx s
      have h1 := ih (bIdx + 1) (trainBatchStep fwd step K bIdx s b)
      have h2 := countMatches_le
        ((fwd Mode.trainMode s.params b.data).map argmaxIdx) b.targets
      simp only [trainGo, trainBatchStep] at h1 ⊢
      simp only [datasetSize, List.map_cons, List.sum_cons] at h1 ⊢
      omega

lemma train_ok_elim {ι P : Type} {fwd : Mode → P → List ι → List (List Rat)}
    {step : P → List ι → List Nat → P} {K : Nat} {p : P} {bs : List (Batch ι)}
    {pq : P} {avg acc : Rat} {lg : List Nat}
    (h : train fwd step K p bs = Except.ok (pq, avg, acc, lg)) :
    pq = (trainFold fwd step K p bs).params
    ∧ avg = mean (trainFold fwd step K p bs).losses
    ∧ acc = 100 * ((trainFold fwd step K p bs).correct : Rat)
        / (datasetSize bs : Rat)
    ∧ lg = (trainFold fwd step K p bs).logged
    ∧ (trainFold fwd step K p bs).losses ≠ [] := by
  unfold train at h
  by_cases he : (trainFold fwd step K p bs).losses.isEmpty
  · rw [if_pos he] at h; exact absurd h (by simp)
  · rw [if_neg he] at h
    have h2 := Except.ok.inj h
    have hne : (trainFold fwd step K p bs).losses ≠ [] := by
      simpa [List.isEmpty_iff] using he
    refine ⟨?_, ?_, ?_, ?_, hne⟩ <;> simp_all [Prod.ext_iff]

lemma nsum_map_num (l : List Nat) (f : Nat → Rat) :
    nsum (l.map (fun x => NFloat.num (f x))) = NFloat.num ((l.map f).sum) := by
  induction l with
  | nil => rfl
  | cons a t ih => simp [nsum, ih, nadd]

lemma list_sum_div (l : List Rat) (s : Rat) :
    (l.map (fun x => x / s)).sum = l.sum / s := by
  induction l with
  | nil => simp
  | cons a t ih => simp [ih, add_div]

lemma cast_sum_nat (l : List Nat) :
    ((l.sum : Nat) : Rat) = (l.map (fun x : Nat => (x : Rat))).sum := by
  induction l with
  | nil => simp
  | cons a t ih => simp [ih]

lemma exists_zip_pair {yt yp : List Nat} (c : Nat) (hl : yt.length = yp.length)
    (hc : c ∈ yt) : ∃ d, (c, d) ∈ yt.zip yp ∧ d ∈ yp := by
  induction yt generalizing yp with
  | nil => cases hc
  | cons a t ih =>
      cases yp with
      | nil => simp at hl
      | cons b t2 =>
          rcases List.mem_cons.mp hc with rfl | hmem
          · exact ⟨b, by simp [List.zip_cons_cons], by simp⟩
          · obtain ⟨d, hd1, hd2⟩ := ih (by simpa using hl) hmem
            exact ⟨d, by simp [List.zip_cons_cons, hd1], by simp [hd2]⟩

lemma perm_insertSorted (x : Nat) (l : List Nat) :
    (insertSorted x l).Perm (x :: l) := by
  induction l with
  | nil => exact List.Perm.refl _
  | cons y ys ih =>
      unfold insertSorted
      split
      · exact List.Perm.refl _
      · exact (List.Perm.cons y ih).trans (List.Perm.swap x y ys)

lemma sortNat_perm (l : List Nat) : (sortNat l).Perm l := by
  induction l with
  | nil => exact List.Perm.refl _
  | cons a t ih =>
      have h1 : sortNat (a :: t) = insertSorted a (sortNat t) := rfl
      rw [h1]
      exact ((perm_insertSorted a (sortNat t)).trans (List.Perm.cons a ih))

lemma mem_sortNat {c : Nat} {l : List Nat} : c ∈ sortNat l ↔ c ∈ l :=
  (sortNat_perm l).mem_iff

lemma mem_cmLabels {c : Nat} {yt yp : List Nat} :
    c ∈ cmLabels yt yp ↔ c ∈ yt ∨ c ∈ yp := by
  simp [cmLabels, mem_sortNat, List.mem_dedup, List.mem_append]

lemma nodup_cmLabels (yt yp : List Nat) : (cmLabels yt yp).Nodup :=
  (sortNat_perm ((yt ++ yp).dedup)).nodup_iff.mpr (List.nodup_dedup _)

lemma sorted_insertSorted (x : Nat) (l : List Nat)
    (h : l.Sorted (fun a b => a ≤ b)) :
    (insertSorted x l).Sorted (fun a b => a ≤ b) := by
  induction l with
  | nil => simp [insertSorted]
  | cons y ys ih =>
      rw [List.sorted_cons] at h
      by_cases hxy : x ≤ y
      · simp only [insertSorted, if_pos hxy]
        rw [List.sorted_cons]
        refine ⟨?_, ?_⟩
        · intro b hb
          rcases List.mem_cons.mp hb with rfl | hb2
          · exact hxy
          · exact le_trans hxy (h.1 b hb2)
        · rw [List.sorted_cons]; exact h
      · simp only [insertSorted, if_neg hxy]
        rw [List.sorted_cons]
        refine ⟨?_, ?_⟩
        · intro b hb
          rcases List.mem_cons.mp ((perm_insertSorted x ys).mem_iff.mp hb)
            with rfl | h2
          · exact le_of_not_le hxy
          · exact h.1 b h2
        · exact ih h.2

lemma sorted_sortNat (l : List Nat) : (sortNat l).Sorted (fun a b => a ≤ b) := by
  induction l with
  | nil => simp [sortNat]
  | cons a t ih => exact sorted_insertSorted a (sortNat t) ih

lemma cmRow_sum_pos {yt yp : List Nat} {c : Nat} (hl : yt.length = yp.length)
    (hc : c ∈ yt) : 0 < (cmRow yt yp c).sum := by
  obtain ⟨d, hpair, hd⟩ := exists_zip_pair c hl hc
  have hdl : d ∈ cmLabels yt yp := mem_cmLabels.mpr (Or.inr hd)
  have hmemf : (c, d) ∈ (yt.zip yp).filter (fun p => p.1 == c && p.2 == d) :=
    List.mem_filter.mpr ⟨hpair, by simp⟩
  have hentry : 0 < ((yt.zip yp).filter (fun p => p.1 == c && p.2 == d)).length :=
    List.length_pos.mpr (List.ne_nil_of_mem hmemf)
  have hmem : ((yt.zip yp).filter (fun p => p.1 == c && p.2 == d)).length
      ∈ cmRow yt yp c :=
    List.mem_map_of_mem _ hdl
  exact lt_of_lt_of_le hentry
    (List.single_le_sum (fun x _ => Nat.zero_le x) _ hmem)

lemma normalizeRow_sum_one {row : List Nat} (h : 0 < row.sum) :
    nsum (normalizeRow row) = NFloat.num 1 := by
  have hns : ((row.sum : Nat) : Rat) ≠ 0 := by
    exact_mod_cast Nat.pos_iff_ne_zero.mp h
  have h1 : normalizeRow row
      = row.map (fun x : Nat => NFloat.num ((x : Rat) / (row.sum : Rat))) := by
    unfold normalizeRow
    apply List.map_congr_left
    intro x _
    simp only [npDiv]
    rw [if_neg hns]
  rw [h1, nsum_map_num]
  have h2 : (row.map (fun x : Nat => (x : Rat) / (row.sum : Rat))).sum
      = (row.map (fun x : Nat => (x : Rat))).sum / (row.sum : Rat) := by
    rw [← list_sum_div (row.map (fun x : Nat => (x : Rat))) (row.sum : Rat)]
    rw [List.map_map]
    rfl
  rw [h2, ← cast_sum_nat, div_self hns]

lemma normalizeRow_mem_normalizedCM {yt yp : List Nat} {c : Nat}
    (hc : c ∈ cmLabels yt yp) :
    normalizeRow (cmRow yt yp c) ∈ normalizedCM yt yp := by
  unfold normalizedCM confusion_matrix
  rw [List.map_map]
  exact List.mem_map_of_mem _ hc

lemma runEpochs_chain {ι P : Type} (fwd : Mode → P → List ι → List (List Rat))
    (step : P → List ι → List Nat → P) (ts : Nat → List (Batch ι))
    (vb : List (Batch ι)) (K : Nat) :
    ∀ (n i : Nat) (m : Model P) (best : Rat)
      (out : Model P × Rat × List EpochRec),
    runEpochs fwd step ts vb K n i m best = Except.ok out →
    BestChain best out.2.2 := by
  intro n
  induction n with
  | zero =>
      intro i m best out h
      simp only [runEpochs] at h
      cases Except.ok.inj h
      trivial
  | succ n ih =>
      intro i m best out h
      simp only [runEpochs] at h
      cases htr : train fwd step K m.params (ts i) with
      | error e => rw [htr] at h; exact absurd h (by simp)
      | ok res =>
          obtain ⟨p, avgLoss, tAcc, logged⟩ := res
          rw [htr] at h
          dsimp only at h
          cases hrec : runEpochs fwd step ts vb K n (i + 1)
              (val fwd vb ⟨p, Mode.trainMode⟩ best).model
              (val fwd vb ⟨p, Mode.trainMode⟩ best).best with
          | error e => rw [hrec] at h; exact absurd h (by simp)
          | ok res2 =>
              obtain ⟨mF, bF, recs⟩ := res2
              rw [hrec] at h
              dsimp only at h
              cases Except.ok.inj h
              refine ⟨rfl, ?_, ?_, ?_⟩
              · exact (val_best_eq fwd vb ⟨p, Mode.trainMode⟩ best)
              · exact (val_wrote_eq fwd vb ⟨p, Mode.trainMode⟩ best)
              · have h2 := ih (i + 1) (val fwd vb ⟨p, Mode.trainMode⟩ best).model
                  (val fwd vb ⟨p, Mode.trainMode⟩ best).best (mF, bF, recs) hrec
                have h3 := val_best_eq fwd vb ⟨p, Mode.trainMode⟩ best
                simpa [h3] using h2

lemma bestChain_get :
    ∀ (recs : List EpochRec) (b : Rat), BestChain b recs →
    ∀ (k : Nat) (h : k < recs.length),
    ((recs.get ⟨k, h⟩).wrote = true
        ↔ (recs.get ⟨k, h⟩).bestBefore < (recs.get ⟨k, h⟩).valAcc)
    ∧ ((recs.get ⟨k, h⟩).bestAfter
        = if (recs.get ⟨k, h⟩).bestBefore < (recs.get ⟨k, h⟩).valAcc
          then (recs.get ⟨k, h⟩).valAcc else (recs.get ⟨k, h⟩).bestBefore)
    ∧ (k = 0 → (recs.get ⟨k, h⟩).bestBefore = b)
    ∧ (∀ (h2 : k + 1 < recs.length),
        (recs.get ⟨k + 1, h2⟩).bestBefore = (recs.get ⟨k, h⟩).bestAfter) := by
  intro recs
  induction recs with
  | nil => intro b _ k h; exact absurd h (by simp)
  | cons r rs ih =>
      intro b hbc k h
      obtain ⟨h1, h2, h3, h4⟩ := hbc
      cases k with
      | zero =>
          refine ⟨?_, ?_, fun _ => h1, ?_⟩
          · show r.wrote = true ↔ r.bestBefore < r.valAcc
            rw [h3, h1]
            exact decide_eq_true_iff
          · show r.bestAfter
                = if r.bestBefore < r.valAcc then r.valAcc else r.bestBefore
            rw [h2, h1]
          · intro h2l
            cases rs with
            | nil => simp at h2l
            | cons r2 rs2 =>
                show r2.bestBefore = r.bestAfter
                exact h4.1
      | succ k2 =>
          have h5 := ih r.bestAfter h4 k2 (by simpa using h)
          refine ⟨h5.1, h5.2.1, by omega, ?_⟩
          intro h2l
          exact h5.2.2.2 (by simpa using h2l)

lemma runEpochs_val_reflects {ι P : Type}
    (fwd : Mode → P → List ι → List (List Rat))
    (step : P → List ι → List Nat → P) (ts : Nat → List (Batch ι))
    (vb : List (Batch ι)) (K : Nat) (p0 : P) :
    ∀ (n j : Nat) (m : Model P) (best : Rat)
      (out : Model P × Rat × List EpochRec),
    runEpochs fwd step ts vb K n (j + 1) m best = Except.ok out →
    m.params = trainedParams fwd step ts K p0 j →
    out.2.2.length = n
    ∧ ∀ (k : Nat) (hk : k < out.2.2.length),
        (out.2.2.get ⟨k, hk⟩).epoch = j + 1 + k
        ∧ (out.2.2.get ⟨k, hk⟩).valAcc
            = valAccuracy fwd vb (trainedParams fwd step ts K p0 (j + 1 + k)) := by
  intro n
  induction n with
  | zero =>
      intro j m best out h hm
      simp only [runEpochs] at h
      cases Except.ok.inj h
      exact ⟨rfl, fun k hk => absurd hk (by simp)⟩
  | succ n ih =>
      intro j m best out h hm
      simp only [runEpochs] at h
      cases htr : train fwd step K m.params (ts (j + 1)) with
      | error e => rw [htr] at h; exact absurd h (by simp)
      | ok res =>
          obtain ⟨p, avgLoss, tAcc, logged⟩ := res
          rw [htr] at h
          dsimp only at h
          have hp : p = trainedParams fwd step ts K p0 (j + 1) := by
            have h1 := (train_ok_elim htr).1
            rw [h1, hm]
            rfl
          cases hrec : runEpochs fwd step ts vb K n (j + 1 + 1)
              (val fwd vb ⟨p, Mode.trainMode⟩ best).model
              (val fwd vb ⟨p, Mode.trainMode⟩ best).best with
          | error e => rw [hrec] at h; exact absurd h (by simp)
          | ok res2 =>
              obtain ⟨mF, bF, recs⟩ := res2
              rw [hrec] at h
              dsimp only at h
              cases Except.ok.inj h
              have hmodp : (val fwd vb ⟨p, Mode.trainMode⟩ best).model.params
                  = trainedParams fwd step ts K p0 (j + 1) := by
                rw [val_model_eq]
                exact hp
              have h2 := ih (j + 1) (val fwd vb ⟨p, Mode.trainMode⟩ best).model
                (val fwd vb ⟨p, Mode.trainMode⟩ best).best (mF, bF, recs) hrec hmodp
              refine ⟨by simpa using h2.1, ?_⟩
              intro k hk
              cases k with
              | zero =>
                  refine ⟨rfl, ?_⟩
                  show (val fwd vb ⟨p, Mode.trainMode⟩ best).accuracy
                      = valAccuracy fwd vb (trainedParams fwd step ts K p0 (j + 1 + 0))
                  rw [val_accuracy_eq]
                  rw [show j + 1 + 0 = j + 1 from rfl, ← hp]
              | succ k2 =>
                  have hk2 : k2 < recs.length := by simpa using hk
                  have h3 := h2.2 k2 hk2
                  have h4 : j + 1 + 1 + k2 = j + 1 + (k2 + 1) := by omega
                  refine ⟨?_, ?_⟩
                  · show (recs.get ⟨k2, hk2⟩).epoch = j + 1 + (k2 + 1)
                    rw [h3.1, h4]
                  · show (recs.get ⟨k2, hk2⟩).valAcc
                        = valAccuracy fwd vb
                            (trainedParams fwd step ts K p0 (j + 1 + (k2 + 1)))
                    rw [h3.2, h4]

lemma trainGo_drop {ι P : Type} (fwd : Mode → P → List ι → List (List Rat))
    (step : P → List ι → List Nat → P) (K1 K2 : Nat) :
    ∀ (bs : List (Batch ι)) (bIdx : Nat) (s1 s2 : TrainState P),
    s1.params = s2.params → s1.losses = s2.losses → s1.correct = s2.correct →
    (trainGo fwd step K1 bIdx s1 bs).params = (trainGo fwd step K2 bIdx s2 bs).params
    ∧ (trainGo fwd step K1 bIdx s1 bs).losses = (trainGo fwd step K2 bIdx s2 bs).losses
    ∧ (trainGo fwd step K1 bIdx s1 bs).correct
        = (trainGo fwd step K2 bIdx s2 bs).correct := by
  intro bs
  induction bs with
  | nil => intro bIdx s1 s2 hp hl hc; exact ⟨hp, hl, hc⟩
  | cons b t ih =>
      intro bIdx s1 s2 hp hl hc
      apply ih (bIdx + 1)
      · show step s1.params b.data b.targets = step s2.params b.data b.targets
        rw [hp]
      · show s1.losses ++ [nllLoss (fwd Mode.trainMode s1.params b.data) b.targets]
            = s2.losses ++ [nllLoss (fwd Mode.trainMode s2.params b.data) b.targets]
        rw [hp, hl]
      · show s1.correct
              + countMatches ((fwd Mode.trainMode s1.params b.data).map argmaxIdx)
                  b.targets
            = s2.correct
              + countMatches ((fwd Mode.trainMode s2.params b.data).map argmaxIdx)
                  b.targets
        rw [hp, hc]

lemma train_dropLog {ι P : Type} (fwd : Mode → P → List ι → List (List Rat))
    (step : P → List ι → List Nat → P) (K1 K2 : Nat) (p : P)
    (bs : List (Batch ι)) :
    dropLog (train fwd step K1 p bs) = dropLog (train fwd step K2 p bs) := by
  obtain ⟨hp, hl, hc⟩ :=
    trainGo_drop fwd step K1 K2 bs 0 ⟨p, [], 0, []⟩ ⟨p, [], 0, []⟩ rfl rfl rfl
  unfold train trainFold dropLog
  dsimp only
  rw [hp, hl, hc]
  split <;> rfl

lemma runEpochs_eraseLogs {ι P : Type} (fwd : Mode → P → List ι → List (List Rat))
    (step : P → List ι → List Nat → P) (ts : Nat → List (Batch ι))
    (vb : List (Batch ι)) (K1 K2 : Nat) :
    ∀ (n i : Nat) (m : Model P) (best : Rat),
    (runEpochs fwd step ts vb K1 n i m best).map
        (fun o => (o.1, o.2.1, eraseLogs o.2.2))
      = (runEpochs fwd step ts vb K2 n i m best).map
        (fun o => (o.1, o.2.1, eraseLogs o.2.2)) := by
  intro n
  induction n with
  | zero => intro i m best; rfl
  | succ n ih =>
      intro i m best
      simp only [runEpochs]
      have hd := train_dropLog fwd step K1 K2 m.params (ts i)
      cases h1 : train fwd step K1 m.params (ts i) with
      | error e =>
          cases h2 : train fwd step K2 m.params (ts i) with
          | error e2 =>
              rw [h1, h2] at hd
          | ok r2 =>
              rw [h1, h2] at hd
              exact absurd hd (by simp [dropLog, Except.map])
      | ok r1 =>
          cases h2 : train fwd step K2 m.params (ts i) with
          | error e2 =>
              rw [h1, h2] at hd
              exact absurd hd (by simp [dropLog, Except.map])
          | ok r2 =>
              obtain ⟨p1, a1, t1, l1⟩ := r1
              obtain ⟨p2, a2, t2, l2⟩ := r2
              rw [h1, h2] at hd
              simp only [dropLog, Except.map] at hd
              have hd2 := Except.ok.inj hd
              injection hd2 with hpe hrest
              injection hrest with hae hrest2
              subst hpe
              subst hae
              subst hrest2
              dsimp only
              have ihh := ih (i + 1) (val fwd vb ⟨p1, Mode.trainMode⟩ best).model
                (val fwd vb ⟨p1, Mode.trainMode⟩ best).best
              cases hr1 : runEpochs fwd step ts vb K1 n (i + 1)
                  (val fwd vb ⟨p1, Mode.trainMode⟩ best).model
                  (val fwd vb ⟨p1, Mode.trainMode⟩ best).best with
              | error e =>
                  cases hr2 : runEpochs fwd step ts vb K2 n (i + 1)
                      (val fwd vb ⟨p1, Mode.trainMode⟩ best).model
                      (val fwd vb ⟨p1, Mode.trainMode⟩ best).best with
                  | error e2 =>
                      rw [hr1, hr2] at ihh
                  | ok rr =>
                      rw [hr1, hr2] at ihh
                      simp only [Except.map] at ihh
                      exact absurd ihh (by simp)
              | ok rr1 =>
                  cases hr2 : runEpochs fwd step ts vb K2 n (i + 1)
                      (val fwd vb ⟨p1, Mode.trainMode⟩ best).model
                      (val fwd vb ⟨p1, Mode.trainMode⟩ best).best with
                  | error e2 =>
                      rw [hr1, hr2] at ihh
                      simp only [Except.map] at ihh
                      exact absurd ihh (by simp)
                  | ok rr2 =>
                      obtain ⟨mF1, bF1, recs1⟩ := rr1
                      obtain ⟨mF2, bF2, recs2⟩ := rr2
                      rw [hr1, hr2] at ihh
                      simp only [Except.map] at ihh
                      have ihh2 := Except.ok.inj ihh
                      injection ihh2 with hm hrest3
                      injection hrest3 with hb he
                      subst hm
                      subst hb
                      simp only [Except.map, eraseLogs, List.map_cons] at he ⊢
                      rw [he]

/-! Claim theorems. -/

/-- C2: for every non-empty training pass, the average loss returned in the
epoch statistics equals the arithmetic mean (sum divided by count) of all
per-batch loss values observed during that pass, and any permutation of the
observed losses has the same mean, so the value is independent of
observation order. -/
theorem train_avg_loss_is_mean {ι P : Type}
    (fwd : Mode → P → List ι → List (List Rat))
    (step : P → List ι → List Nat → P) (K : Nat) (p : P) (bs : List (Batch ι))
    (pq : P) (avg acc : Rat) (lg : List Nat)
    (h : train fwd step K p bs = Except.ok (pq, avg, acc, lg)) :
    avg = (trainFold fwd step K p bs).losses.sum
        / ((trainFold fwd step K p bs).losses.length : Rat)
    ∧ ∀ l2 : List Rat, l2.Perm (trainFold fwd step K p bs).losses →
        l2.sum / (l2.length : Rat) = avg := by
  have h2 := (train_ok_elim h).2.1
  refine ⟨h2, ?_⟩
  intro l2 hperm
  rw [h2]
  unfold mean
  rw [hperm.sum_eq, hperm.length_eq]

/-- Witness for C2 at a concrete one-batch training pass. -/
theorem train_avg_loss_is_mean_witness :
    train constFwd incStep 1 0 oneBatch = Except.ok (1, -1, 100, [0])
    ∧ (-1 : Rat) = (trainFold constFwd incStep 1 0 oneBatch).losses.sum
        / ((trainFold constFwd incStep 1 0 oneBatch).losses.length : Rat) :=
  ⟨by decide,
   (train_avg_loss_is_mean constFwd incStep 1 0 oneBatch 1 (-1) 100 [0]
      (by decide)).1⟩

/-- C3: if the training stream yields zero batches, the training pass fails
with the empty-dataset error (raised by the mean computation) instead of
averaging zero elements or dividing by zero. -/
theorem train_empty_stream_error {ι P : Type}
    (fwd : Mode → P → List ι → List (List Rat))
    (step : P → List ι → List Nat → P) (K : Nat) (p : P) :
    train fwd step K p ([] : List (Batch ι))
      = Except.error TrainError.emptyDataset := rfl

/-- C6: for every completed pass over a split, the accumulated correct
count never exceeds the split's dataset size, the reported accuracy equals
100 times correct over size, and the accuracy lies in the interval
from 0 to 100 — for the validation pass and the training pass alike. -/
theorem accuracy_within_bounds {ι P : Type}
    (fwd : Mode → P → List ι → List (List Rat)) (bs : List (Batch ι))
    (m : Model P) (best : Rat) (step : P → List ι → List Nat → P) (K : Nat)
    (tp : P) (tbs : List (Batch ι)) (pq : P) (avg acc : Rat) (lg : List Nat)
    (hvs : 0 < datasetSize bs) (hts : 0 < datasetSize tbs)
    (ht : train fwd step K tp tbs = Except.ok (pq, avg, acc, lg)) :
    (valGo fwd m.params bs).1 ≤ datasetSize bs
    ∧ (val fwd bs m best).accuracy
        = 100 * ((valGo fwd m.params bs).1 : Rat) / (datasetSize bs : Rat)
    ∧ 0 ≤ (val fwd bs m best).accuracy
    ∧ (val fwd bs m best).accuracy ≤ 100
    ∧ (trainFold fwd step K tp tbs).correct ≤ datasetSize tbs
    ∧ acc = 100 * ((trainFold fwd step K tp tbs).correct : Rat)
        / (datasetSize tbs : Rat)
    ∧ 0 ≤ acc
    ∧ acc ≤ 100 := by
  have hv1 := valGo_correct_le fwd m.params bs
  have hvacc : (val fwd bs m best).accuracy
      = 100 * ((valGo fwd m.params bs).1 : Rat) / (datasetSize bs : Rat) := by
    rw [val_accuracy_eq]
    rfl
  have htr := train_ok_elim ht
  have htc : (trainFold fwd step K tp tbs).correct ≤ datasetSize tbs := by
    have h2 := trainGo_correct_le fwd step K tbs 0 ⟨tp, [], 0, []⟩
    simpa [trainFold] using h2
  refine ⟨hv1, hvacc, ?_, ?_, htc, htr.2.2.1, ?_, ?_⟩
  · rw [hvacc]; exact accuracy_nonneg _ _
  · rw [hvacc]; exact accuracy_le_100 _ _ hv1 hvs
  · rw [htr.2.2.1]; exact accuracy_nonneg _ _
  · rw [htr.2.2.1]; exact accuracy_le_100 _ _ htc hts

/-- Witness for C6 at a concrete one-batch validation and training pass. -/
theorem accuracy_within_bounds_witness :
    0 < datasetSize oneBatch
    ∧ train constFwd incStep 1 0 oneBatch = Except.ok (1, -1, 100, [0])
    ∧ (val constFwd oneBatch ⟨0, Mode.trainMode⟩ 0).accuracy ≤ 100 :=
  ⟨by decide, by decide,
   (accuracy_within_bounds constFwd oneBatch ⟨0, Mode.trainMode⟩ 0 incStep 1
      0 oneBatch 1 (-1) 100 [0] (by decide) (by decide) (by decide)).2.2.2.1⟩

/-- C8: the validation pass performs exactly one pass over the validation
stream with the model in evaluation mode and leaves the parameter state
unchanged: the returned model carries the same parameters as the incoming
one, its mode is eval, and the prediction log is exactly the per-batch
targets and the per-batch arg-max predictions of the unchanged parameters,
concatenated in stream order. -/
theorem val_preserves_params {ι P : Type}
    (fwd : Mode → P → List ι → List (List Rat)) (bs : List (Batch ι))
    (m : Model P) (best : Rat) :
    (val fwd bs m best).model.params = m.params
    ∧ (val fwd bs m best).model.mode = Mode.evalMode
    ∧ (val fwd bs m best).log.targets = (bs.map (fun b => b.targets)).flatten
    ∧ (val fwd bs m best).log.preds
        = (bs.map (fun b =>
            (fwd Mode.evalMode m.params b.data).map argmaxIdx)).flatten := by
  refine ⟨?_, ?_, ?_, ?_⟩
  · rw [val_model_eq]
  · rw [val_model_eq]
  · rw [val_log_eq, valGo_targets]
  · rw [val_log_eq, valGo_preds]

/-- C4: the confusion matrix handed to the renderer is row-normalized by
row sums, so the row of every class with at least one true example sums to
exactly 1; in the 10-example scenario (always predict class 0, true labels
five 0s and five 1s) the validation accuracy is 50 and both rows of the
normalized matrix are [1, 0]. -/
theorem confusion_row_sums_to_one (yt yp : List Nat) (c : Nat)
    (hl : yt.length = yp.length) (hc : c ∈ yt) :
    normalizeRow (cmRow yt yp c) ∈ normalizedCM yt yp
    ∧ nsum (normalizeRow (cmRow yt yp c)) = NFloat.num 1
    ∧ normalizedCM [0, 0, 0, 0, 0, 1, 1, 1, 1, 1] (List.replicate 10 0)
        = [[NFloat.num 1, NFloat.num 0], [NFloat.num 1, NFloat.num 0]]
    ∧ (val constFwd scenBatches ⟨0, Mode.trainMode⟩ 0).accuracy = 50
    ∧ normalizedCM (val constFwd scenBatches ⟨0, Mode.trainMode⟩ 0).log.targets
        (val constFwd scenBatches ⟨0, Mode.trainMode⟩ 0).log.preds
        = [[NFloat.num 1, NFloat.num 0], [NFloat.num 1, NFloat.num 0]] :=
  ⟨normalizeRow_mem_normalizedCM (mem_cmLabels.mpr (Or.inl hc)),
   normalizeRow_sum_one (cmRow_sum_pos hl hc),
   by decide, by decide, by decide⟩

/-- Witness for C4 at the 10-example scenario, class 0. -/
theorem confusion_row_sums_to_one_witness :
    ([0, 0, 0, 0, 0, 1, 1, 1, 1, 1] : List Nat).length
      = (List.replicate 10 0).length
    ∧ (0 : Nat) ∈ ([0, 0, 0, 0, 0, 1, 1, 1, 1, 1] : List Nat)
    ∧ nsum (normalizeRow
        (cmRow [0, 0, 0, 0, 0, 1, 1, 1, 1, 1] (List.replicate 10 0) 0))
      = NFloat.num 1 :=
  ⟨by decide, by decide,
   (confusion_row_sums_to_one [0, 0, 0, 0, 0, 1, 1, 1, 1, 1]
      (List.replicate 10 0) 0 (by decide) (by decide)).2.1⟩

/-- C5 counterexample: with true labels [0, 0] and predictions [0, 1],
class 1 is predicted but never true, its un-normalized row sum is 0, and
the normalization performs the division anyway: the rendered row is
[NaN, NaN] — neither all-zero nor absent, refuting the claim that the
zero-sum row is guarded. -/
theorem zero_row_guard_cex :
    (cmRow [0, 0] [0, 1] 1).sum = 0
    ∧ 1 ∈ cmLabels [0, 0] [0, 1]
    ∧ normalizeRow (cmRow [0, 0] [0, 1] 1) = [NFloat.nan, NFloat.nan]
    ∧ normalizeRow (cmRow [0, 0] [0, 1] 1) ∈ normalizedCM [0, 0] [0, 1]
    ∧ ¬(∀ e ∈ normalizeRow (cmRow [0, 0] [0, 1] 1), e = NFloat.num 0) := by
  decide

/-- C5 (amended): for every prediction log in which some class of the
label set has a zero row sum in the un-normalized confusion matrix, the
row normalization is not guarded: it performs the 0/0 division, and every
entry of that class's rendered row is NaN (which propagates to the
renderer). -/
theorem zero_row_sum_nan (yt yp : List Nat) (c : Nat)
    (hc : c ∈ cmLabels yt yp) (h0 : (cmRow yt yp c).sum = 0) :
    normalizeRow (cmRow yt yp c) ∈ normalizedCM yt yp
    ∧ ∀ e ∈ normalizeRow (cmRow yt yp c), e = NFloat.nan := by
  refine ⟨normalizeRow_mem_normalizedCM hc, ?_⟩
  intro e he
  unfold normalizeRow at he
  obtain ⟨x, hx, rfl⟩ := List.mem_map.mp he
  have hx0 : x = 0 := List.sum_eq_zero_iff.mp h0 x hx
  rw [hx0, h0]
  simp [npDiv]

/-- Witness for C5 (amended) at the log with true [0, 0], predicted
[0, 1]. -/
theorem zero_row_sum_nan_witness :
    1 ∈ cmLabels [0, 0] [0, 1]
    ∧ (cmRow [0, 0] [0, 1] 1).sum = 0
    ∧ normalizeRow (cmRow [0, 0] [0, 1] 1) ∈ normalizedCM [0, 0] [0, 1] :=
  ⟨by decide, by decide,
   (zero_row_sum_nan [0, 0] [0, 1] 1 (by decide) (by decide)).1⟩

/-- C10: the confusion matrix is computed only over the sorted,
deduplicated set of class labels that occur among the true or predicted
labels: membership in the label list is equivalent to occurrence, the
label list is sorted and duplicate-free, the matrix is square over it, a
class occurring neither as a true nor as a predicted label has no row, and
a zero row sum can arise only for a class that is predicted but never
true. -/
theorem confusion_labels_occurring (yt yp : List Nat) (c : Nat)
    (hl : yt.length = yp.length) :
    (c ∈ cmLabels yt yp ↔ c ∈ yt ∨ c ∈ yp)
    ∧ (cmLabels yt yp).Nodup
    ∧ (cmLabels yt yp).Sorted (fun a b => a ≤ b)
    ∧ (confusion_matrix yt yp).length = (cmLabels yt yp).length
    ∧ (∀ row ∈ confusion_matrix yt yp, row.length = (cmLabels yt yp).length)
    ∧ (c ∉ yt → c ∉ yp → c ∉ cmLabels yt yp)
    ∧ (c ∈ cmLabels yt yp → (cmRow yt yp c).sum = 0 → c ∉ yt ∧ c ∈ yp) := by
  refine ⟨mem_cmLabels, nodup_cmLabels yt yp, ?_, by simp [confusion_matrix],
    ?_, ?_, ?_⟩
  · unfold cmLabels
    exact sorted_sortNat _
  · intro row hrow
    obtain ⟨d, _, rfl⟩ := List.mem_map.mp hrow
    simp [cmRow]
  · intro h1 h2 hmem
    rcases mem_cmLabels.mp hmem with h | h
    · exact h1 h
    · exact h2 h
  · intro hmem h0
    have hnt : c ∉ yt := by
      intro hct
      exact (cmRow_sum_pos hl hct).ne' h0
    exact ⟨hnt, (mem_cmLabels.mp hmem).resolve_left hnt⟩

/-- Witness for C10 at true labels [0, 0] and predictions [0, 1], with the
absent class 2. -/
theorem confusion_labels_occurring_witness :
    ([0, 0] : List Nat).length = ([0, 1] : List Nat).length
    ∧ ((2 : Nat) ∈ cmLabels [0, 0] [0, 1] ↔ 2 ∈ ([0, 0] : List Nat)
        ∨ 2 ∈ ([0, 1] : List Nat)) :=
  ⟨by decide, (confusion_labels_occurring [0, 0] [0, 1] 2 (by decide)).1⟩

/-- C1 counterexample: a three-epoch run with validation accuracies
[100, 0, 0].  Epochs 2 and 3 have equal validation accuracy, yet the
number of checkpoint writes among those two consecutive epochs is 0, not
exactly 1, refuting the universally-quantified final clause of the
claim. -/
theorem best_selector_equal_accuracy_cex :
    cexRecs.length = 3
    ∧ cexRecs.map (fun r => r.valAcc) = [100, 0, 0]
    ∧ cexRecs.map (fun r => r.wrote) = [true, false, false]
    ∧ (cexRecs.drop 1).map (fun r => r.valAcc) = [0, 0]
    ∧ ((cexRecs.drop 1).filter (fun r => r.wrote)).length = 0
    ∧ ¬(((cexRecs.drop 1).filter (fun r => r.wrote)).length = 1) := by
  decide

/-- C1 (amended): in every run, BestAccuracy starts at 0 and is
monotonically non-decreasing across epochs, and a checkpoint write
together with the confusion-matrix render happens after a validation pass
if and only if that pass's validation accuracy strictly exceeds
BestAccuracy at the moment of comparison; two consecutive epochs with
equal validation accuracy produce at most one checkpoint write between
them — exactly one when the first of the two strictly exceeds the best
accuracy before it, and none otherwise. -/
theorem best_selector_invariant {ι P : Type}
    (fwd : Mode → P → List ι → List (List Rat))
    (step : P → List ι → List Nat → P) (ts : Nat → List (Batch ι))
    (vb : List (Batch ι)) (K N : Nat) (m0 : Model P) (mF : Model P)
    (bF : Rat) (recs : List EpochRec)
    (h : mainLoop fwd step ts vb K N m0 = Except.ok (mF, bF, recs)) :
    (∀ h0 : 0 < recs.length, (recs.get ⟨0, h0⟩).bestBefore = 0)
    ∧ (∀ (k : Nat) (hk : k < recs.length),
        (recs.get ⟨k, hk⟩).bestBefore ≤ (recs.get ⟨k, hk⟩).bestAfter)
    ∧ (∀ (k : Nat) (hk : k < recs.length) (hk2 : k + 1 < recs.length),
        (recs.get ⟨k + 1, hk2⟩).bestBefore = (recs.get ⟨k, hk⟩).bestAfter)
    ∧ (∀ (k : Nat) (hk : k < recs.length),
        ((recs.get ⟨k, hk⟩).wrote = true
          ↔ (recs.get ⟨k, hk⟩).bestBefore < (recs.get ⟨k, hk⟩).valAcc))
    ∧ (∀ (k : Nat) (hk : k < recs.length) (hk2 : k + 1 < recs.length),
        (recs.get ⟨k, hk⟩).valAcc = (recs.get ⟨k + 1, hk2⟩).valAcc →
        ((if (recs.get ⟨k, hk⟩).wrote then 1 else 0)
          + (if (recs.get ⟨k + 1, hk2⟩).wrote then 1 else 0) : Nat)
          = if (recs.get ⟨k, hk⟩).bestBefore < (recs.get ⟨k, hk⟩).valAcc
            then 1 else 0) := by
  have chain : BestChain 0 recs :=
    runEpochs_chain fwd step ts vb K N 1 m0 0 (mF, bF, recs) h
  refine ⟨?_, ?_, ?_, ?_, ?_⟩
  · intro h0
    exact (bestChain_get recs 0 chain 0 h0).2.2.1 rfl
  · intro k hk
    have h2 := (bestChain_get recs 0 chain k hk).2.1
    rw [h2]
    split
    · exact le_of_lt (by assumption)
    · exact le_refl _
  · intro k hk hk2
    exact (bestChain_get recs 0 chain k hk).2.2.2 hk2
  · intro k hk
    exact (bestChain_get recs 0 chain k hk).1
  · intro k hk hk2 hacc
    have hw1 := (bestChain_get recs 0 chain k hk).1
    have hba := (bestChain_get recs 0 chain k hk).2.1
    have hlink := (bestChain_get recs 0 chain k hk).2.2.2 hk2
    have hw2 := (bestChain_get recs 0 chain (k + 1) hk2).1
    by_cases hlt : (recs.get ⟨k, hk⟩).bestBefore < (recs.get ⟨k, hk⟩).valAcc
    · have hwt : (recs.get ⟨k, hk⟩).wrote = true := hw1.mpr hlt
      have hb2 : (recs.get ⟨k + 1, hk2⟩).bestBefore
          = (recs.get ⟨k, hk⟩).valAcc := by
        rw [hlink, hba, if_pos hlt]
      have hnlt : ¬(recs.get ⟨k + 1, hk2⟩).bestBefore
          < (recs.get ⟨k + 1, hk2⟩).valAcc := by
        rw [hb2, ← hacc]
        exact lt_irrefl _
      have hw2f : (recs.get ⟨k + 1, hk2⟩).wrote = false := by
        cases hwest : (recs.get ⟨k + 1, hk2⟩).wrote
        · rfl
        · exact absurd (hw2.mp hwest) hnlt
      simp only [List.get_eq_getElem] at hwt hw2f hlt
      simp [hwt, hw2f, hlt]
    · have hwf : (recs.get ⟨k, hk⟩).wrote = false := by
        cases hwt : (recs.get ⟨k, hk⟩).wrote
        · rfl
        · exact absurd (hw1.mp hwt) hlt
      have hb2 : (recs.get ⟨k + 1, hk2⟩).bestBefore
          = (recs.get ⟨k, hk⟩).bestBefore := by
        rw [hlink, hba, if_neg hlt]
      have hnlt : ¬(recs.get ⟨k + 1, hk2⟩).bestBefore
          < (recs.get ⟨k + 1, hk2⟩).valAcc := by
        rw [hb2, ← hacc]
        exact hlt
      have hw2f : (recs.get ⟨k + 1, hk2⟩).wrote = false := by
        cases hwest : (recs.get ⟨k + 1, hk2⟩).wrote
        · rfl
        · exact absurd (hw2.mp hwest) hnlt
      simp only [List.get_eq_getElem] at hwf hw2f hlt
      simp [hwf, hw2f, hlt]

/-- Witness for C1 (amended) at a concrete two-epoch run with validation
accuracies [100, 100]: the first epoch writes and the second does not. -/
theorem best_selector_invariant_witness :
    mainLoop constFwd incStep (fun _ => oneBatch) oneBatch 1 2
        ⟨0, Mode.trainMode⟩ = Except.ok (⟨2, Mode.evalMode⟩, 100, witRecs)
    ∧ ((witRecs.get ⟨0, by decide⟩).wrote = true
        ↔ (witRecs.get ⟨0, by decide⟩).bestBefore
          < (witRecs.get ⟨0, by decide⟩).valAcc) :=
  ⟨by decide,
   (best_selector_invariant constFwd incStep (fun _ => oneBatch) oneBatch 1 2
      ⟨0, Mode.trainMode⟩ ⟨2, Mode.evalMode⟩ 100 witRecs
      (by decide)).2.2.2.1 0 (by decide)⟩

/-- C7: the supervisor runs epochs 1 through N, and for each one invokes
the training pass and then the validation pass in that strict order: a
successful run produces exactly N epoch records, the k-th record belongs
to epoch k+1, and its validation accuracy is exactly the accuracy of the
parameter state obtained by the first k+1 training passes — never a stale
or future state; the run completes only after all N records. -/
theorem supervisor_strict_order {ι P : Type}
    (fwd : Mode → P → List ι → List (List Rat))
    (step : P → List ι → List Nat → P) (ts : Nat → List (Batch ι))
    (vb : List (Batch ι)) (K N : Nat) (m0 : Model P) (mF : Model P)
    (bF : Rat) (recs : List EpochRec)
    (h : mainLoop fwd step ts vb K N m0 = Except.ok (mF, bF, recs)) :
    recs.length = N
    ∧ ∀ (k : Nat) (hk : k < recs.length),
        (recs.get ⟨k, hk⟩).epoch = k + 1
        ∧ (recs.get ⟨k, hk⟩).valAcc
            = valAccuracy fwd vb (trainedParams fwd step ts K m0.params (k + 1)) := by
  have h2 := runEpochs_val_reflects fwd step ts vb K m0.params N 0 m0 0
    (mF, bF, recs) h rfl
  refine ⟨h2.1, ?_⟩
  intro k hk
  have h3 := h2.2 k hk
  have h4 : 0 + 1 + k = k + 1 := by omega
  refine ⟨?_, ?_⟩
  · rw [h3.1, h4]
  · rw [h3.2, h4]

/-- Witness for C7 at a concrete one-epoch run. -/
theorem supervisor_strict_order_witness :
    mainLoop constFwd incStep (fun _ => oneBatch) oneBatch 1 1
        ⟨0, Mode.trainMode⟩
      = Except.ok (⟨1, Mode.evalMode⟩, 100, [⟨1, -1, 100, 100, 0, 100, true, [0]⟩])
    ∧ ([(⟨1, -1, 100, 100, 0, 100, true, [0]⟩ : EpochRec)] : List EpochRec).length = 1 :=
  ⟨by decide,
   (supervisor_strict_order constFwd incStep (fun _ => oneBatch) oneBatch 1 1
      ⟨0, Mode.trainMode⟩ ⟨1, Mode.evalMode⟩ 100
      [⟨1, -1, 100, 100, 0, 100, true, [0]⟩] (by decide)).1⟩

/-- C9: the run is deterministic in its semantic inputs — two runs of the
full training loop over the same forward function, update function, epoch
streams, validation split, epoch count and initial model produce identical
sequences of per-epoch average loss, training accuracy and validation
accuracy, even when their (positive) logging schedules differ, since
logging is purely observational. -/
theorem run_stats_deterministic {ι P : Type}
    (fwd : Mode → P → List ι → List (List Rat))
    (step : P → List ι → List Nat → P) (ts : Nat → List (Batch ι))
    (vb : List (Batch ι)) (K1 K2 N : Nat) (m0 : Model P)
    (out1 out2 : Model P × Rat × List EpochRec)
    (_hK1 : 0 < K1) (_hK2 : 0 < K2)
    (h1 : mainLoop fwd step ts vb K1 N m0 = Except.ok out1)
    (h2 : mainLoop fwd step ts vb K2 N m0 = Except.ok out2) :
    statsOf out1.2.2 = statsOf out2.2.2 := by
  have h := runEpochs_eraseLogs fwd step ts vb K1 K2 N 1 m0 0
  rw [show runEpochs fwd step ts vb K1 N 1 m0 0 = Except.ok out1 from h1,
      show runEpochs fwd step ts vb K2 N 1 m0 0 = Except.ok out2 from h2] at h
  simp only [Except.map] at h
  have h3 := Except.ok.inj h
  have h4 : eraseLogs out1.2.2 = eraseLogs out2.2.2 :=
    congrArg (fun t => t.2.2) h3
  have h5 : ∀ recs, statsOf (eraseLogs recs) = statsOf recs := by
    intro recs
    unfold statsOf eraseLogs
    rw [List.map_map]
    rfl
  rw [← h5 out1.2.2, h4, h5]

/-- Witness for C9 at a concrete one-epoch run with logging schedules 1
and 2. -/
theorem run_stats_deterministic_witness :
    (0 : Nat) < 1
    ∧ (0 : Nat) < 2
    ∧ statsOf [(⟨1, -1, 100, 100, 0, 100, true, [0]⟩ : EpochRec)]
      = statsOf [(⟨1, -1, 100, 100, 0, 100, true, [0]⟩ : EpochRec)] :=
  ⟨by decide, by decide,
   run_stats_deterministic constFwd incStep (fun _ => oneBatch) oneBatch 1 2 1
      ⟨0, Mode.trainMode⟩
      (⟨1, Mode.evalMode⟩, 100, [⟨1, -1, 100, 100, 0, 100, true, [0]⟩])
      (⟨1, Mode.evalMode⟩, 100, [⟨1, -1, 100, 100, 0, 100, true, [0]⟩])
      (by decide) (by decide) (by decide) (by decide)⟩

end GazeNet
